import Mathlib

/-!
Shallow embedding of the QICAS-QIO repository (orbital-entropy Jacobi
optimizer `qio/grad/jacobi.py` and tailored-CCSD corrector `tccsd.py`)
and proofs about its claimed properties.

Conventions:
* floating point arithmetic is modelled by exact arithmetic (`ℝ`, and `ℚ`
  for the tailored-CCSD amplitude formulas);
* a spin-orbital index `2*a + σ` of the `2N x 2N` 1-RDM is modelled as the
  pair `(a, σ) : Fin n × Bool` (`false` = spin-up/even, `true` =
  spin-down/odd);
* a numpy `assert` is modelled by an `Option` result (`none` = assertion
  failure);
* the process-wide random draws `np.random.rand()` are modelled as
  explicit arguments ranging over `[0, 1)`.
-/

/-! ## Data model -/

/-- Spin-orbital 1-RDM of size `2n x 2n`: entry `gamma[2a+σ, 2b+τ]` is
`γ (a, σ) (b, τ)`. -/
abbrev RDM1 (n : ℕ) := Fin n × Bool → Fin n × Bool → ℝ

/-- Spatial-orbital 2-RDM of shape `n × n × n × n`. -/
abbrev RDM2 (n : ℕ) := Fin n → Fin n → Fin n → Fin n → ℝ

/-! ## Tailored CCSD (`src/tccsd.py`, `get_cas_t1t2`)

The CI-vector conversion (`pyscf.ci.cisd.from_fcivec`,
`cisdvec_to_amplitudes`) belongs to the external pyscf package, so the
reference weight `c0`, singles `c1` and doubles `c2` are taken as inputs. -/

/-- Shallow embedding of `get_cas_t1t2` (src/tccsd.py lines 34-41): the
`assert (abs(c0) > 1e-8)` is modelled by returning `none` on failure;
otherwise `t1 = c1/c0` and `t2 = c2/c0 - einsum('ia,jb->ijab', t1, t1)`
are returned. -/
def get_cas_t1t2 (no nv : ℕ) (c0 : ℚ) (c1 : Fin no → Fin nv → ℚ)
    (c2 : Fin no → Fin no → Fin nv → Fin nv → ℚ) :
    Option ((Fin no → Fin nv → ℚ) × (Fin no → Fin no → Fin nv → Fin nv → ℚ)) :=
  if 1e-8 < |c0| then
    some (fun i a => c1 i a / c0,
          fun i j a b => c2 i j a b / c0 - (c1 i a / c0) * (c1 j b / c0))
  else
    none

/-! ## Initial random perturbation (`minimize_orb_corr_jacobi`, line 197) -/

/-- One raw entry of the symmetry-breaking perturbation matrix
`X = (np.random.rand(no,no)/2-1)/1/(1+49*np.random.rand())` built in
`minimize_orb_corr_jacobi` before antisymmetrization; `r` models one
entry of `np.random.rand(no,no)` and `u` models the shared draw
`np.random.rand()`, both uniform on `[0, 1)`. -/
noncomputable def perturb_entry (r u : ℝ) : ℝ :=
  (r / 2 - 1) / 1 / (1 + 49 * u)

/-! ## Two-orbital Jacobi rotation (`jacobi.py`, `jacobi_transform`) -/

/-- The 2×2 rotation `u1 = [[cos θ, sin θ], [-sin θ, cos θ]]`
(jacobi.py lines 36 and 80), with `c`/`s` standing for `cos θ`/`sin θ`. -/
def u1 (c s : ℝ) : Fin 2 → Fin 2 → ℝ := fun a b =>
  if a = 0 then (if b = 0 then c else s) else (if b = 0 then -s else c)

/-- The `N×N` rotation `U1`: the identity except `U1[i,i] = c`,
`U1[i,j] = s`, `U1[j,i] = -s`, `U1[j,j] = c` (jacobi.py lines 81-85). -/
def givens {n : ℕ} (c s : ℝ) (i j : Fin n) : Fin n → Fin n → ℝ := fun a b =>
  if a = i then (if b = i then c else if b = j then s else 0)
  else if a = j then (if b = i then -s else if b = j then c else 0)
  else if a = b then 1 else 0

/-- The deduplicated index list `list(set([a,i,j]))` used for the mixed
terms when `a ∈ {i,j}`, and `[a]` otherwise (jacobi.py lines 92-105). -/
def mixIdx {n : ℕ} (i j a : Fin n) : Finset (Fin n) :=
  if a = i ∨ a = j then {a, i, j} else {a}

/-- The selective 1-RDM update of `jacobi_transform` (jacobi.py lines
87-113): starting from `gamma_ = np.zeros((2no, 2no))`, an entry
`gamma_[2a, 2b]` and its spin-down partner are recomputed from the mixed
sums exactly when `a` or `b` lies in `{i, j}`, copied otherwise, and the
mixed-spin entries are never assigned (they keep the value 0). -/
def gamma_update {n : ℕ} (c s : ℝ) (i j : Fin n) (γ : RDM1 n) : RDM1 n := fun p q =>
  if p.2 = q.2 then
    (if p.1 = i ∨ p.1 = j ∨ q.1 = i ∨ q.1 = j then
      ∑ m in mixIdx i j p.1, ∑ k in mixIdx i j q.1,
        givens c s i j p.1 m * givens c s i j q.1 k * γ (m, p.2) (k, q.2)
    else γ p q)
  else 0

/-- The full 4-index rotation
`einsum('ia,jb,kc,ld,abcd->ijkl', U1, U1, U1, U1, Gamma)`
(jacobi.py line 90). -/
def rdm2_rotate {n : ℕ} (U : Fin n → Fin n → ℝ) (Γ : RDM2 n) : RDM2 n :=
  fun p q r s => ∑ a, ∑ b, ∑ c, ∑ d, U p a * U q b * U r c * U s d * Γ a b c d

/-- Shallow embedding of `jacobi_transform(gamma, Gamma, i, j, t)`
(jacobi.py lines 63-115). -/
noncomputable def jacobi_transform {n : ℕ} (γ : RDM1 n) (Γ : RDM2 n)
    (i j : Fin n) (t : ℝ) : RDM1 n × RDM2 n :=
  (gamma_update (Real.cos t) (Real.sin t) i j γ,
   rdm2_rotate (givens (Real.cos t) (Real.sin t) i j) Γ)

/-- Spin doubling `kron(U, I₂)`: entry `(2a+σ, 2b+τ)` is `U[a,b]` when
`σ = τ` and `0` otherwise. -/
def spin_double {n : ℕ} (U : Fin n → Fin n → ℝ) :
    Fin n × Bool → Fin n × Bool → ℝ := fun p q =>
  if p.2 = q.2 then U p.1 q.1 else 0

/-- Comparison definition for claim C1, following the spec's words: the
1-RDM obtained by contracting the full spin-doubled `U1` twice against
gamma (a full two-sided tensor contraction, no selectivity). -/
def gamma_full {n : ℕ} (c s : ℝ) (i j : Fin n) (γ : RDM1 n) : RDM1 n := fun p q =>
  ∑ m : Fin n × Bool, ∑ k : Fin n × Bool,
    spin_double (givens c s i j) p m * spin_double (givens c s i j) q k * γ m k

/-- Two-sided same-spin block rotation `U g Uᵀ` written as an explicit
double sum; helper for relating the selective update to full
contractions. -/
def block_rotate {n : ℕ} (U : Fin n → Fin n → ℝ) (g : Fin n → Fin n → ℝ) :
    Fin n → Fin n → ℝ := fun a b => ∑ m, ∑ k, U a m * U b k * g m k

/-- Matrix product as an explicit sum. -/
def matMul {n : ℕ} (U V : Fin n → Fin n → ℝ) : Fin n → Fin n → ℝ :=
  fun a b => ∑ m, U a m * V m b

/-- Row-side single contraction `(U g) a b = ∑ m, U a m * g m b`. -/
def rowMul {n : ℕ} (U : Fin n → Fin n → ℝ) (g : Fin n → Fin n → ℝ) :
    Fin n → Fin n → ℝ := fun a b => ∑ m, U a m * g m b

/-- Column-side single contraction `(g Uᵀ) a b = ∑ m, U b m * g a m`. -/
def colMul {n : ℕ} (U : Fin n → Fin n → ℝ) (g : Fin n → Fin n → ℝ) :
    Fin n → Fin n → ℝ := fun a b => ∑ m, U b m * g a m

/-- Contraction of a matrix against the first index of a 4-index tensor;
helper used to factor the `einsum` of `rdm2_rotate`. -/
def rotT1 {n : ℕ} (U : Fin n → Fin n → ℝ) (Γ : RDM2 n) : RDM2 n :=
  fun p q r s => ∑ a, U p a * Γ a q r s

/-- Contraction against the second index of a 4-index tensor. -/
def rotT2 {n : ℕ} (U : Fin n → Fin n → ℝ) (Γ : RDM2 n) : RDM2 n :=
  fun p q r s => ∑ b, U q b * Γ p b r s

/-- Contraction against the third index of a 4-index tensor. -/
def rotT3 {n : ℕ} (U : Fin n → Fin n → ℝ) (Γ : RDM2 n) : RDM2 n :=
  fun p q r s => ∑ c, U r c * Γ p q c s

/-- Contraction against the fourth index of a 4-index tensor. -/
def rotT4 {n : ℕ} (U : Fin n → Fin n → ℝ) (Γ : RDM2 n) : RDM2 n :=
  fun p q r s => ∑ d, U s d * Γ p q r d

/-- A 1-RDM is spin-block-diagonal when all of its mixed-spin entries
vanish. -/
def spin_block_diag {n : ℕ} (γ : RDM1 n) : Prop :=
  ∀ a b : Fin n, γ (a, false) (b, true) = 0 ∧ γ (a, true) (b, false) = 0

/-- A concrete 2-orbital 1-RDM whose mixed-spin entries are all `1`
(and same-spin entries `0`); used to exhibit discarded spin coherence. -/
def gammaMixed : RDM1 2 := fun p q => if p.2 = q.2 then 0 else 1

/-- The zero 1-RDM on 2 orbitals. -/
def gammaZero : RDM1 2 := fun _ _ => 0

/-- The zero 2-RDM on 2 orbitals. -/
def rdm2Zero : RDM2 2 := fun _ _ _ _ => 0

/-! ## Single-pair angle search (`jacobi_cost`, `jacobi_direct`) -/

/-- Modelled from the spec: the external entropy helper
`qio.entropy.shannon` (referenced by `jacobi.py` but not part of this
repository) returns the Shannon entropy `-Σ p·log p` of a discrete
spectrum with the convention that a zero-probability outcome contributes
exactly 0; `Real.log` returns 0 on nonpositive arguments, which realizes
that convention. -/
noncomputable def shannon (spec : List ℝ) : ℝ :=
  -((spec.map (fun p => p * Real.log p)).sum)

/-- Shallow embedding of `jacobi_cost(theta, i, j, rdm1, rdm2,
inactive_indices)` (jacobi.py lines 15-60): for each `k` in the list
`[i, j]` that is inactive, rotate the occupations of the 2-dimensional
subspace `{i, j}` by the row `index = 1*(k==j)` of `u1` and accumulate
the Shannon entropy of the 4-outcome local spectrum. -/
noncomputable def jacobi_cost {n : ℕ} (θ : ℝ) (i j : Fin n) (rdm1 : RDM1 n)
    (rdm2 : RDM2 n) (inactive : Finset (Fin n)) : ℝ :=
  (([i, j] : List (Fin n)).map (fun k =>
    if k ∈ inactive then
      let idx : Fin 2 → Fin n := fun m => if m = 0 then i else j
      let w : Fin 2 := if k = j then 1 else 0
      let uu : Fin 2 → ℝ := fun m => u1 (Real.cos θ) (Real.sin θ) w m
      let nu := ∑ m : Fin 2, ∑ p : Fin 2,
        uu m * uu p * rdm1 (idx m, false) (idx p, false)
      let nd := ∑ m : Fin 2, ∑ p : Fin 2,
        uu m * uu p * rdm1 (idx m, true) (idx p, true)
      let nn := ∑ m : Fin 2, ∑ p : Fin 2, ∑ r : Fin 2, ∑ q : Fin 2,
        uu m * uu p * uu r * uu q * rdm2 (idx m) (idx p) (idx r) (idx q)
      shannon [1 - nu - nd + nn, nu - nn, nd - nn, nn]
    else 0)).sum

/-- numpy `np.arange(start, stop, step)` for a positive step:
`⌈(stop - start)/step⌉` points `start + step * k`. -/
noncomputable def arange (start stop step : ℝ) : List ℝ :=
  (List.range (Int.toNat ⌈(stop - start) / step⌉)).map
    (fun k : ℕ => start + step * (k : ℝ))

/-- One step of the coarse scan of `jacobi_direct` (jacobi.py lines
139-144): state `(t_opt, cost)`, accept when `cost > new_cost`. -/
noncomputable def coarse_step (F : ℝ → ℝ) (st : ℝ × ℝ) (t : ℝ) : ℝ × ℝ :=
  if st.2 > F t then (t, F t) else st

/-- The coarse scan of `jacobi_direct`: grid `np.arange(0.01, pi, 0.01)`,
initial state `t_opt = 0`, `cost = F 0`. -/
noncomputable def coarse_scan (F : ℝ → ℝ) : ℝ × ℝ :=
  (arange 0.01 Real.pi 0.01).foldl (coarse_step F) (0, F 0)

/-- The `if t_opt == 0: t_opt += grid` adjustment before the fine scan
(jacobi.py lines 146-147). -/
noncomputable def shift_t_opt (t : ℝ) : ℝ :=
  if t = 0 then t + 0.01 else t

/-- The fine-scan window `np.arange(t_opt - 0.01, t_opt + 0.01, 0.0001)`
(jacobi.py line 149). -/
noncomputable def fine_window (tOpt : ℝ) : List ℝ :=
  arange (tOpt - 0.01) (tOpt + 0.01) 0.0001

/-- One step of the fine scan (jacobi.py lines 150-154): state
`(t_opt_new?, cost)` where `none` encodes `test = 0`; accept when
`cost > new_cost + 1e-8`. -/
noncomputable def fine_step (F : ℝ → ℝ) (st : Option ℝ × ℝ) (t : ℝ) :
    Option ℝ × ℝ :=
  if st.2 > F t + 1e-8 then (some t, F t) else st

/-- Shallow embedding of `jacobi_direct(i, j, gamma, Gamma,
inactive_indices)` (jacobi.py lines 117-158): coarse scan, `t_opt`
adjustment, fine scan, and `t_opt_new` if `test == 1` else `None`. -/
noncomputable def jacobi_direct {n : ℕ} (i j : Fin n) (γ : RDM1 n) (Γ : RDM2 n)
    (inactive : Finset (Fin n)) : Option ℝ :=
  ((fine_window (shift_t_opt
      (coarse_scan (fun t => jacobi_cost t i j γ Γ inactive)).1)).foldl
    (fine_step (fun t => jacobi_cost t i j γ Γ inactive))
    (none, (coarse_scan (fun t => jacobi_cost t i j γ Γ inactive)).2)).1

/-- The sequence of angles accepted by the fine scan: an angle `t` of the
grid is accepted exactly when it improves the running best cost by more
than `1e-8`, and on acceptance the running best cost becomes `F t`. -/
noncomputable def accepted_angles (F : ℝ → ℝ) : ℝ → List ℝ → List ℝ
  | _, [] => []
  | cost, t :: ts =>
    if cost > F t + 1e-8 then t :: accepted_angles F (F t) ts
    else accepted_angles F cost ts

/-- The accepted-angle sequence of `jacobi_direct`'s fine scan, starting
from the coarse scan's best cost. -/
noncomputable def jacobi_direct_accepted {n : ℕ} (i j : Fin n) (γ : RDM1 n)
    (Γ : RDM2 n) (inactive : Finset (Fin n)) : List ℝ :=
  accepted_angles (fun t => jacobi_cost t i j γ Γ inactive)
    (coarse_scan (fun t => jacobi_cost t i j γ Γ inactive)).2
    (fine_window (shift_t_opt
      (coarse_scan (fun t => jacobi_cost t i j γ Γ inactive)).1))

/-- The last element of a list, or a default when the list is empty. -/
def last_or {α : Type} (b : Option α) : List α → Option α
  | [] => b
  | t :: ts => last_or (some t) ts

/-! ## Legacy reorder bubble sort (`reorder`, jacobi.py lines 335-420) -/

/-- One in-place pass of the legacy bubble sort in `reorder` (jacobi.py
lines 371-390): scan adjacent positions left to right, swapping whenever
`S1[i] < S1[i+1]`, together with the number of swaps performed (one
rotation record `[i+1, i+2, 0]` is appended per swap). -/
def bubble_pass {α : Type} [LinearOrder α] : List α → List α × ℕ
  | [] => ([], 0)
  | [a] => ([a], 0)
  | a :: b :: l =>
    if a < b then
      let r := bubble_pass (a :: l)
      (b :: r.1, r.2 + 1)
    else
      let r := bubble_pass (b :: l)
      (a :: r.1, r.2)
termination_by l => l.length

/-- Number of strictly out-of-order pairs (for the descending order
targeted by `reorder`): pairs at positions `i < j` with `v[i] < v[j]`. -/
def inversions {α : Type} [LinearOrder α] : List α → ℕ
  | [] => 0
  | a :: l => l.countP (fun b => decide (a < b)) + inversions l

/-- The `while test == 1` loop of `reorder`, with an explicit pass budget
(fuel): repeat bubble passes until a pass performs no swap, accumulating
the total number of swaps (equal to the number of angle-0 rotation
records appended). -/
def bubble_loop {α : Type} [LinearOrder α] : ℕ → List α → List α × ℕ
  | 0, l => (l, 0)
  | fuel + 1, l =>
    if (bubble_pass l).2 = 0 then ((bubble_pass l).1, 0)
    else
      ((bubble_loop fuel (bubble_pass l).1).1,
       (bubble_pass l).2 + (bubble_loop fuel (bubble_pass l).1).2)

/-- Per-orbital entropy list used by the bubble phase of `reorder`
(jacobi.py lines 356-363): `spec = [1-nu, nu, 1-nd, nd]` fed to
`shannon`. -/
noncomputable def reorder_S1 {n : ℕ} (γ : RDM1 n) : List ℝ :=
  (List.finRange n).map (fun a =>
    shannon [1 - γ (a, false) (a, false), γ (a, false) (a, false),
             1 - γ (a, true) (a, true), γ (a, true) (a, true)])

/-- The bubble-sort phase of `reorder`: final entropy list and number of
angle-0 adjacent-swap rotation records, run with pass budget
`inversions + 1` (shown sufficient by `reorder_bubble_spec`). -/
noncomputable def reorder_bubble {n : ℕ} (γ : RDM1 n) : List ℝ × ℕ :=
  bubble_loop (inversions (reorder_S1 γ) + 1) (reorder_S1 γ)

/-! ## Fast reorder (`reorder_fast`, jacobi.py lines 244-304)

`np.argsort(v)[::-1]` (a stable descending argsort) is modelled as a
sorting permutation (`Tuple.sort`) composed with index reversal; the
claims proved below hold for any sorting permutation, so the stable
tie-breaking of numpy is immaterial.  A fancy-indexing step `P = P[inds]`
composes the underlying position map on the right with `inds`. -/

/-- Descending argsort of a vector: position `k` holds the index of the
`k`-th largest value. -/
noncomputable def argsort_desc {m : ℕ} (v : Fin m → ℝ) : Fin m → Fin m :=
  fun k => Tuple.sort v (Fin.rev k)

/-- Per-orbital entropy vector `s_val` of `reorder_fast` (jacobi.py lines
262-268): the inline `-np.sum(np.log(spec)*spec, axis=0)` over the
4-outcome spectrum. -/
noncomputable def s_val_init {n : ℕ} (γ : RDM1 n) (Γ : RDM2 n) : Fin n → ℝ :=
  fun a =>
    -((1 - γ (a, false) (a, false) - γ (a, true) (a, true) + Γ a a a a) *
        Real.log (1 - γ (a, false) (a, false) - γ (a, true) (a, true) + Γ a a a a) +
      ((γ (a, false) (a, false) - Γ a a a a) *
        Real.log (γ (a, false) (a, false) - Γ a a a a) +
       ((γ (a, true) (a, true) - Γ a a a a) *
        Real.log (γ (a, true) (a, true) - Γ a a a a) +
        Γ a a a a * Real.log (Γ a a a a))))

/-- Per-orbital occupation vector `occ_num = nu + nd` (jacobi.py line
266). -/
def occ_init {n : ℕ} (γ : RDM1 n) : Fin n → ℝ :=
  fun a => γ (a, false) (a, false) + γ (a, true) (a, true)

/-- Embedding of a tail-block position `k` (of the block starting at
`n_cas`) into `Fin n`. -/
def tail_idx {n : ℕ} (n_cas : ℕ) (k : Fin (n - n_cas)) : Fin n :=
  ⟨n_cas + k, by have := k.isLt; omega⟩

/-- The index array `concatenate((arange(n_cas), n_cas + inds_inactive))`
(jacobi.py line 279) as a position map: identity on the head block,
`n_cas + τ(k - n_cas)` on the tail block. -/
def concat_tail {n : ℕ} (n_cas : ℕ) (τ : Fin (n - n_cas) → Fin (n - n_cas)) :
    Fin n → Fin n := fun k =>
  if h : (k : ℕ) < n_cas then k
  else tail_idx n_cas (τ ⟨(k : ℕ) - n_cas, by have := k.isLt; omega⟩)

/-- The index array `concatenate((inds_active, arange(n_cas, n_orb)))`
(jacobi.py line 287) as a position map: `ρ` on the head block, identity
on the tail. -/
def concat_head {n : ℕ} (n_cas : ℕ) (h : n_cas ≤ n) (ρ : Fin n_cas → Fin n_cas) :
    Fin n → Fin n := fun k =>
  if hk : (k : ℕ) < n_cas then ⟨ρ ⟨(k : ℕ), hk⟩, by
    have := (ρ ⟨(k : ℕ), hk⟩).isLt
    omega⟩
  else k

/-- The core-to-front index array
`[n_cas, ..., n_cas+n_core) ++ [0, ..., n_cas) ++ [n_cas+n_core, ..., n)`
(jacobi.py line 294) as a position map. -/
def core_move {n : ℕ} (n_cas n_core : ℕ) (h : n_cas + n_core ≤ n) :
    Fin n → Fin n := fun k =>
  if h1 : (k : ℕ) < n_core then ⟨n_cas + (k : ℕ), by omega⟩
  else if h2 : (k : ℕ) < n_core + n_cas then ⟨(k : ℕ) - n_core, by omega⟩
  else k

/-- Position map after step 1 of `reorder_fast` (descending entropy
sort, jacobi.py lines 270-274). -/
noncomputable def rf_f0 {n : ℕ} (γ : RDM1 n) (Γ : RDM2 n) : Fin n → Fin n :=
  argsort_desc (s_val_init γ Γ)

/-- Occupation vector after step 1 (`occ_num = occ_num[inds]`). -/
noncomputable def rf_occ1 {n : ℕ} (γ : RDM1 n) (Γ : RDM2 n) : Fin n → ℝ :=
  fun k => occ_init γ (rf_f0 γ Γ k)

/-- Descending argsort of the inactive-block occupations
(`inds_inactive`, jacobi.py line 277). -/
noncomputable def rf_tau {n : ℕ} (γ : RDM1 n) (Γ : RDM2 n) (n_cas : ℕ) :
    Fin (n - n_cas) → Fin (n - n_cas) :=
  argsort_desc (fun k => rf_occ1 γ Γ (tail_idx n_cas k))

/-- Position map after step 2 (`P = P[inds]`, jacobi.py line 280). -/
noncomputable def rf_f1 {n : ℕ} (γ : RDM1 n) (Γ : RDM2 n) (n_cas : ℕ) :
    Fin n → Fin n :=
  fun k => rf_f0 γ Γ (concat_tail n_cas (rf_tau γ Γ n_cas) k)

/-- Occupation vector after step 2. -/
noncomputable def rf_occ2 {n : ℕ} (γ : RDM1 n) (Γ : RDM2 n) (n_cas : ℕ) :
    Fin n → ℝ :=
  fun k => rf_occ1 γ Γ (concat_tail n_cas (rf_tau γ Γ n_cas) k)

/-- Descending argsort of the active-block occupations (`inds_active`,
jacobi.py line 285). -/
noncomputable def rf_rho {n : ℕ} (γ : RDM1 n) (Γ : RDM2 n) (n_cas : ℕ)
    (h : n_cas ≤ n) : Fin n_cas → Fin n_cas :=
  argsort_desc (fun k => rf_occ2 γ Γ n_cas ⟨(k : ℕ), by have := k.isLt; omega⟩)

/-- Position map after step 3 (`P = P[inds]`, jacobi.py line 291). -/
noncomputable def rf_f2 {n : ℕ} (γ : RDM1 n) (Γ : RDM2 n) (n_cas : ℕ)
    (h : n_cas ≤ n) : Fin n → Fin n :=
  fun k => rf_f1 γ Γ n_cas (concat_head n_cas h (rf_rho γ Γ n_cas h) k)

/-- Final position map of `reorder_fast` after the core-to-front move
(`P = P[inds]`, jacobi.py line 295). -/
noncomputable def reorder_fast_idx {n : ℕ} (γ : RDM1 n) (Γ : RDM2 n)
    (n_cas n_core : ℕ) (h : n_cas + n_core ≤ n) : Fin n → Fin n :=
  fun k => rf_f2 γ Γ n_cas (by omega) (core_move n_cas n_core h k)

/-- Permutation matrix with row `k` equal to the standard basis vector at
`f k`; `np.eye(n)[inds]` followed by the row-selections `P[inds]` yields
exactly `perm_mat` of the composed position map. -/
def perm_mat {n : ℕ} (f : Fin n → Fin n) : Fin n → Fin n → ℝ :=
  fun k l => if l = f k then 1 else 0

/-- Matrix-vector product `(M @ v)[k]` as an explicit sum. -/
def mat_vec {n : ℕ} (M : Fin n → Fin n → ℝ) (v : Fin n → ℝ) : Fin n → ℝ :=
  fun k => ∑ l, M k l * v l

/-- Matrix product with the transpose, `(M @ N.T)[k,l]`, as an explicit
sum. -/
def mat_mul_transpose {n : ℕ} (M N : Fin n → Fin n → ℝ) : Fin n → Fin n → ℝ :=
  fun k l => ∑ m, M k m * N l m

/-- The identity matrix as a function. -/
def id_mat {n : ℕ} : Fin n → Fin n → ℝ :=
  fun k l => if k = l then 1 else 0

/-- The permutation matrix `P` returned by `reorder_fast`. -/
noncomputable def reorder_fast_P {n : ℕ} (γ : RDM1 n) (Γ : RDM2 n)
    (n_cas n_core : ℕ) (h : n_cas + n_core ≤ n) : Fin n → Fin n → ℝ :=
  perm_mat (reorder_fast_idx γ Γ n_cas n_core h)

/-- The tracked sorted entropy vector `s_val` at the end of
`reorder_fast` (each step performs `s_val = s_val[inds]`). -/
noncomputable def reorder_fast_s_val {n : ℕ} (γ : RDM1 n) (Γ : RDM2 n)
    (n_cas n_core : ℕ) (h : n_cas + n_core ≤ n) : Fin n → ℝ :=
  fun k => s_val_init γ Γ (reorder_fast_idx γ Γ n_cas n_core h k)

/-! # Theorems -/

/-- C2: `make_tailored_ccsd`'s amplitude extraction fails (assertion
failure, modelled as `none`) exactly when `|c0| ≤ 1e-8`; when
`|c0| > 1e-8` it produces `t1 = c1/c0` and
`t2 = c2/c0 - t1 ⊗ t1` and in the failure case no amplitudes are
produced. -/
theorem get_cas_t1t2_spec (no nv : ℕ) (c0 : ℚ) (c1 : Fin no → Fin nv → ℚ)
    (c2 : Fin no → Fin no → Fin nv → Fin nv → ℚ) :
    (get_cas_t1t2 no nv c0 c1 c2 = none ↔ |c0| ≤ 1e-8) ∧
    (1e-8 < |c0| →
      get_cas_t1t2 no nv c0 c1 c2 =
        some (fun i a => c1 i a / c0,
              fun i j a b => c2 i j a b / c0 - (c1 i a / c0) * (c1 j b / c0))) := by
  constructor
  · constructor
    · intro hnone
      by_contra hlt
      rw [not_le] at hlt
      rw [get_cas_t1t2, if_pos hlt] at hnone
      exact Option.noConfusion hnone
    · intro hle
      rw [get_cas_t1t2, if_neg (not_lt.mpr hle)]
  · intro hlt
    rw [get_cas_t1t2, if_pos hlt]

/-- Witness for C2 at `c0 = 1`, `c1 = c2 = 0` (1×1 active space). -/
theorem get_cas_t1t2_spec_witness :
    (1e-8 < |(1 : ℚ)|) ∧
    get_cas_t1t2 1 1 1 (fun _ _ => 0) (fun _ _ _ _ => 0) =
      some (fun i a => (fun _ _ => (0:ℚ)) i a / 1,
            fun i j a b => (fun _ _ _ _ => (0:ℚ)) i j a b / 1 -
              ((fun _ _ => (0:ℚ)) i a / 1) * ((fun _ _ => (0:ℚ)) j b / 1)) :=
  ⟨by norm_num,
   (get_cas_t1t2_spec 1 1 1 (fun _ _ => 0) (fun _ _ _ _ => 0)).2 (by norm_num)⟩

/-- C8 counterexample: the claim that raw perturbation entries range over
the full interval `[-1, 1] / (1 + 49 u)` — in particular that values in
`(-0.5, 1] / (1 + 49 u)` are attainable — fails at `u = 0`: the value
`1/2` (which lies in `(-0.5, 1] / (1 + 49·0)`) is attained by no draw
`r ∈ [0, 1)`. -/
theorem perturb_entry_cex :
    ¬ ∃ r : ℝ, 0 ≤ r ∧ r < 1 ∧ perturb_entry r 0 = 1 / 2 := by
  rintro ⟨r, h0, h1, he⟩
  unfold perturb_entry at he
  norm_num at he
  linarith

/-- C8 (amended): for every realization `u ∈ [0, ∞)` of the denominator
draw, each raw entry `(r/2 - 1)/1/(1 + 49u)` with `r ∈ [0, 1)` lies in
`[-1, -1/2) / (1 + 49u)`, and conversely every value of that interval is
attained by some `r ∈ [0, 1)`. -/
theorem perturb_entry_range (u : ℝ) (hu : 0 ≤ u) :
    (∀ r : ℝ, 0 ≤ r → r < 1 →
      -(1 / (1 + 49 * u)) ≤ perturb_entry r u ∧
        perturb_entry r u < -(1 / 2) / (1 + 49 * u)) ∧
    (∀ v : ℝ, -(1 / (1 + 49 * u)) ≤ v → v < -(1 / 2) / (1 + 49 * u) →
      ∃ r : ℝ, 0 ≤ r ∧ r < 1 ∧ perturb_entry r u = v) := by
  have hpos : (0 : ℝ) < 1 + 49 * u := by linarith
  have hne : (1 + 49 * u) ≠ 0 := ne_of_gt hpos
  constructor
  · intro r h0 h1
    unfold perturb_entry
    rw [div_one]
    constructor
    · rw [show -(1 / (1 + 49 * u)) = (-1) / (1 + 49 * u) by rw [neg_div]]
      exact (div_le_div_iff_of_pos_right hpos).mpr (by linarith)
    · exact (div_lt_div_iff_of_pos_right hpos).mpr (by linarith)
  · intro v hv1 hv2
    have hv1' : -1 ≤ v * (1 + 49 * u) := by
      rw [show -(1 / (1 + 49 * u)) = (-1) / (1 + 49 * u) by rw [neg_div]] at hv1
      rw [div_le_iff₀ hpos] at hv1
      linarith
    have hv2' : v * (1 + 49 * u) < -(1 / 2) := by
      rw [lt_div_iff₀ hpos] at hv2
      linarith
    refine ⟨2 * (v * (1 + 49 * u) + 1), by linarith, by linarith, ?_⟩
    unfold perturb_entry
    field_simp

/-- Witness for C8 (amended) at `u = 0`, `r = 0`. -/
theorem perturb_entry_range_witness :
    (0 : ℝ) ≤ 0 ∧ ((0 : ℝ) ≤ 0 ∧ (0 : ℝ) < 1 ∧
      (-(1 / (1 + 49 * 0)) ≤ perturb_entry 0 0 ∧
        perturb_entry 0 0 < -(1 / 2) / (1 + 49 * 0))) :=
  ⟨le_refl 0, le_refl 0, zero_lt_one,
   (perturb_entry_range 0 (le_refl 0)).1 0 (le_refl 0) zero_lt_one⟩

/-! ## Rotation algebra helper lemmas -/

theorem givens_apply_i {n : ℕ} (c s : ℝ) (i j m : Fin n) :
    givens c s i j i m = if m = i then c else if m = j then s else 0 := by
  simp [givens]

theorem givens_apply_j {n : ℕ} (c s : ℝ) {i j : Fin n} (hij : i ≠ j) (m : Fin n) :
    givens c s i j j m = if m = i then -s else if m = j then c else 0 := by
  simp [givens, Ne.symm hij]

theorem givens_apply_other {n : ℕ} (c s : ℝ) {i j a : Fin n}
    (ha : a ≠ i) (hb : a ≠ j) (m : Fin n) :
    givens c s i j a m = if a = m then 1 else 0 := by
  simp [givens, ha, hb]

theorem sum_givens_i {n : ℕ} {i j : Fin n} (hij : i ≠ j) (c s : ℝ) (X : Fin n → ℝ) :
    ∑ m, givens c s i j i m * X m = c * X i + s * X j := by
  have h1 : ∀ m, givens c s i j i m * X m
      = (if m = i then c * X m else 0) + (if m = j then s * X m else 0) := by
    intro m
    rw [givens_apply_i]
    by_cases hmi : m = i
    · subst hmi
      simp [hij, Ne.symm hij]
    · by_cases hmj : m = j
      · subst hmj
        simp [hmi]
      · simp [hmi, hmj]
  rw [Finset.sum_congr rfl (fun m _ => h1 m), Finset.sum_add_distrib,
      Finset.sum_ite_eq' Finset.univ i (fun m => c * X m),
      Finset.sum_ite_eq' Finset.univ j (fun m => s * X m)]
  simp

theorem sum_givens_j {n : ℕ} {i j : Fin n} (hij : i ≠ j) (c s : ℝ) (X : Fin n → ℝ) :
    ∑ m, givens c s i j j m * X m = -s * X i + c * X j := by
  have h1 : ∀ m, givens c s i j j m * X m
      = (if m = i then -s * X m else 0) + (if m = j then c * X m else 0) := by
    intro m
    rw [givens_apply_j c s hij]
    by_cases hmi : m = i
    · subst hmi
      simp [hij, Ne.symm hij]
    · by_cases hmj : m = j
      · subst hmj
        simp [hmi]
      · simp [hmi, hmj]
  rw [Finset.sum_congr rfl (fun m _ => h1 m), Finset.sum_add_distrib,
      Finset.sum_ite_eq' Finset.univ i (fun m => -s * X m),
      Finset.sum_ite_eq' Finset.univ j (fun m => c * X m)]
  simp

theorem sum_givens_other {n : ℕ} {i j a : Fin n} (ha : a ≠ i) (hb : a ≠ j)
    (c s : ℝ) (X : Fin n → ℝ) :
    ∑ m, givens c s i j a m * X m = X a := by
  have h1 : ∀ m, givens c s i j a m * X m = if a = m then X m else 0 := by
    intro m
    rw [givens_apply_other c s ha hb]
    by_cases h : a = m <;> simp [h]
  rw [Finset.sum_congr rfl (fun m _ => h1 m), Finset.sum_ite_eq Finset.univ a X]
  simp

theorem givens_support {n : ℕ} {i j : Fin n} (hij : i ≠ j) (c s : ℝ)
    (a m : Fin n) (hm : m ∉ mixIdx i j a) : givens c s i j a m = 0 := by
  by_cases hai : a = i ∨ a = j
  · rw [mixIdx, if_pos hai] at hm
    simp only [Finset.mem_insert, Finset.mem_singleton, not_or] at hm
    rcases hai with h | h
    · subst h
      rw [givens_apply_i, if_neg hm.2.1, if_neg hm.2.2]
    · subst h
      rw [givens_apply_j c s hij, if_neg hm.2.1, if_neg hm.2.2]
  · rw [mixIdx, if_neg hai] at hm
    simp only [Finset.mem_singleton] at hm
    push_neg at hai
    rw [givens_apply_other c s hai.1 hai.2, if_neg (fun h => hm h.symm)]

theorem gamma_update_eq {n : ℕ} {i j : Fin n} (hij : i ≠ j) (c s : ℝ) (γ : RDM1 n) :
    gamma_update c s i j γ = fun p q =>
      if p.2 = q.2 then
        ∑ m, ∑ k, givens c s i j p.1 m * givens c s i j q.1 k * γ (m, p.2) (k, q.2)
      else 0 := by
  funext p q
  rw [gamma_update]
  by_cases hs : p.2 = q.2
  · rw [if_pos hs, if_pos hs]
    by_cases hact : p.1 = i ∨ p.1 = j ∨ q.1 = i ∨ q.1 = j
    · rw [if_pos hact]
      have hinner : ∀ m : Fin n,
          ∑ k in mixIdx i j q.1,
            givens c s i j p.1 m * givens c s i j q.1 k * γ (m, p.2) (k, q.2)
          = ∑ k, givens c s i j p.1 m * givens c s i j q.1 k * γ (m, p.2) (k, q.2) := by
        intro m
        refine Finset.sum_subset (Finset.subset_univ _) ?_
        intro k _ hk
        rw [givens_support hij c s q.1 k hk]
        ring
      rw [Finset.sum_congr rfl (fun m _ => hinner m)]
      refine Finset.sum_subset (Finset.subset_univ _) ?_
      intro m _ hm
      have h0 : givens c s i j p.1 m = 0 := givens_support hij c s p.1 m hm
      refine Finset.sum_eq_zero fun k _ => ?_
      rw [h0]
      ring
    · rw [if_neg hact]
      push_neg at hact
      have hin : ∀ m : Fin n,
          ∑ k, givens c s i j p.1 m * givens c s i j q.1 k * γ (m, p.2) (k, q.2)
            = givens c s i j p.1 m * γ (m, p.2) (q.1, q.2) := by
        intro m
        have hcomm : ∀ k, givens c s i j p.1 m * givens c s i j q.1 k * γ (m, p.2) (k, q.2)
            = givens c s i j q.1 k * (givens c s i j p.1 m * γ (m, p.2) (k, q.2)) := by
          intro k
          ring
        rw [Finset.sum_congr rfl (fun k _ => hcomm k)]
        exact sum_givens_other hact.2.2.1 hact.2.2.2 c s
          (fun k => givens c s i j p.1 m * γ (m, p.2) (k, q.2))
      rw [Finset.sum_congr rfl (fun m _ => hin m)]
      rw [sum_givens_other hact.1 hact.2.1 c s (fun m => γ (m, p.2) (q.1, q.2))]
  · rw [if_neg hs, if_neg hs]

theorem matMul_givens {n : ℕ} {i j : Fin n} (hij : i ≠ j) (c1 s1 c2 s2 : ℝ) :
    matMul (givens c2 s2 i j) (givens c1 s1 i j)
      = givens (c1 * c2 - s1 * s2) (s1 * c2 + c1 * s2) i j := by
  funext a b
  rw [matMul]
  by_cases hai : a = i
  · rw [hai]
    rw [sum_givens_i hij c2 s2]
    rw [givens_apply_i c1 s1, givens_apply_j c1 s1 hij,
        givens_apply_i (c1 * c2 - s1 * s2) (s1 * c2 + c1 * s2)]
    by_cases hbi : b = i
    · simp [hbi, hij, Ne.symm hij]
      ring
    · by_cases hbj : b = j
      · simp [hbi, hbj, Ne.symm hij]
        ring
      · simp [hbi, hbj]
  · by_cases haj : a = j
    · rw [haj]
      rw [sum_givens_j hij c2 s2]
      rw [givens_apply_i c1 s1, givens_apply_j c1 s1 hij,
          givens_apply_j (c1 * c2 - s1 * s2) (s1 * c2 + c1 * s2) hij]
      by_cases hbi : b = i
      · simp [hbi, hij, Ne.symm hij]
        ring
      · by_cases hbj : b = j
        · simp [hbi, hbj, Ne.symm hij]
          ring
        · simp [hbi, hbj]
    · rw [sum_givens_other hai haj c2 s2]
      rw [givens_apply_other c1 s1 hai haj,
          givens_apply_other (c1 * c2 - s1 * s2) (s1 * c2 + c1 * s2) hai haj]

theorem block_rotate_eq_rowcol {n : ℕ} (U : Fin n → Fin n → ℝ) (g : Fin n → Fin n → ℝ) :
    block_rotate U g = rowMul U (colMul U g) := by
  funext a b
  simp only [block_rotate, rowMul, colMul, Finset.mul_sum]
  exact Finset.sum_congr rfl fun m _ => Finset.sum_congr rfl fun k _ => by ring

theorem rowMul_rowMul {n : ℕ} (U V : Fin n → Fin n → ℝ) (g : Fin n → Fin n → ℝ) :
    rowMul U (rowMul V g) = rowMul (matMul U V) g := by
  funext a b
  simp only [rowMul, matMul, Finset.mul_sum, Finset.sum_mul]
  rw [Finset.sum_comm]
  exact Finset.sum_congr rfl fun p _ => Finset.sum_congr rfl fun m _ => by ring

theorem colMul_colMul {n : ℕ} (U V : Fin n → Fin n → ℝ) (g : Fin n → Fin n → ℝ) :
    colMul U (colMul V g) = colMul (matMul U V) g := by
  funext a b
  simp only [colMul, matMul, Finset.mul_sum, Finset.sum_mul]
  rw [Finset.sum_comm]
  exact Finset.sum_congr rfl fun p _ => Finset.sum_congr rfl fun m _ => by ring

theorem rowMul_colMul {n : ℕ} (U V : Fin n → Fin n → ℝ) (g : Fin n → Fin n → ℝ) :
    rowMul U (colMul V g) = colMul V (rowMul U g) := by
  funext a b
  simp only [rowMul, colMul, Finset.mul_sum]
  rw [Finset.sum_comm]
  exact Finset.sum_congr rfl fun p _ => Finset.sum_congr rfl fun m _ => by ring

theorem block_rotate_comp {n : ℕ} (U V : Fin n → Fin n → ℝ) (g : Fin n → Fin n → ℝ) :
    block_rotate U (block_rotate V g) = block_rotate (matMul U V) g := by
  rw [block_rotate_eq_rowcol, block_rotate_eq_rowcol V, block_rotate_eq_rowcol (matMul U V)]
  rw [show colMul U (rowMul V (colMul V g)) = rowMul V (colMul U (colMul V g)) from
    (rowMul_colMul V U (colMul V g)).symm]
  rw [rowMul_rowMul, colMul_colMul]

theorem gamma_update_apply {n : ℕ} {i j : Fin n} (hij : i ≠ j) (c s : ℝ)
    (γ : RDM1 n) (p q : Fin n × Bool) :
    gamma_update c s i j γ p q =
      if p.2 = q.2 then
        ∑ m, ∑ k, givens c s i j p.1 m * givens c s i j q.1 k * γ (m, p.2) (k, q.2)
      else 0 :=
  congrFun (congrFun (gamma_update_eq hij c s γ) p) q

theorem gamma_update_comp {n : ℕ} {i j : Fin n} (hij : i ≠ j) (c1 s1 c2 s2 : ℝ)
    (γ : RDM1 n) :
    gamma_update c2 s2 i j (gamma_update c1 s1 i j γ)
      = gamma_update (c1 * c2 - s1 * s2) (s1 * c2 + c1 * s2) i j γ := by
  funext p q
  rw [gamma_update_apply hij c2 s2, gamma_update_apply hij]
  by_cases hs : p.2 = q.2
  · rw [if_pos hs, if_pos hs]
    have hinner : ∀ m k : Fin n,
        gamma_update c1 s1 i j γ (m, p.2) (k, q.2)
          = ∑ m', ∑ k',
              givens c1 s1 i j m m' * givens c1 s1 i j k k' * γ (m', p.2) (k', q.2) := by
      intro m k
      rw [gamma_update_apply hij c1 s1]
      exact if_pos hs
    rw [Finset.sum_congr rfl (fun m _ => Finset.sum_congr rfl (fun k _ => by
      rw [hinner m k]))]
    have h := congrFun (congrFun (block_rotate_comp (givens c2 s2 i j)
      (givens c1 s1 i j) (fun a b => γ (a, p.2) (b, q.2))) p.1) q.1
    rw [matMul_givens hij] at h
    exact h
  · rw [if_neg hs, if_neg hs]

theorem rdm2_rotate_eq_T {n : ℕ} (U : Fin n → Fin n → ℝ) (Γ : RDM2 n) :
    rdm2_rotate U Γ = rotT1 U (rotT2 U (rotT3 U (rotT4 U Γ))) := by
  funext p q r s
  simp only [rdm2_rotate, rotT1, rotT2, rotT3, rotT4, Finset.mul_sum]
  exact Finset.sum_congr rfl fun a _ => Finset.sum_congr rfl fun b _ =>
    Finset.sum_congr rfl fun c _ => Finset.sum_congr rfl fun d _ => by ring

theorem rotT1_rotT1 {n : ℕ} (U V : Fin n → Fin n → ℝ) (Γ : RDM2 n) :
    rotT1 U (rotT1 V Γ) = rotT1 (matMul U V) Γ := by
  funext p q r s
  simp only [rotT1, matMul, Finset.mul_sum, Finset.sum_mul]
  rw [Finset.sum_comm]
  exact Finset.sum_congr rfl fun a _ => Finset.sum_congr rfl fun m _ => by ring

theorem rotT2_rotT2 {n : ℕ} (U V : Fin n → Fin n → ℝ) (Γ : RDM2 n) :
    rotT2 U (rotT2 V Γ) = rotT2 (matMul U V) Γ := by
  funext p q r s
  simp only [rotT2, matMul, Finset.mul_sum, Finset.sum_mul]
  rw [Finset.sum_comm]
  exact Finset.sum_congr rfl fun a _ => Finset.sum_congr rfl fun m _ => by ring

theorem rotT3_rotT3 {n : ℕ} (U V : Fin n → Fin n → ℝ) (Γ : RDM2 n) :
    rotT3 U (rotT3 V Γ) = rotT3 (matMul U V) Γ := by
  funext p q r s
  simp only [rotT3, matMul, Finset.mul_sum, Finset.sum_mul]
  rw [Finset.sum_comm]
  exact Finset.sum_congr rfl fun a _ => Finset.sum_congr rfl fun m _ => by ring

theorem rotT4_rotT4 {n : ℕ} (U V : Fin n → Fin n → ℝ) (Γ : RDM2 n) :
    rotT4 U (rotT4 V Γ) = rotT4 (matMul U V) Γ := by
  funext p q r s
  simp only [rotT4, matMul, Finset.mul_sum, Finset.sum_mul]
  rw [Finset.sum_comm]
  exact Finset.sum_congr rfl fun a _ => Finset.sum_congr rfl fun m _ => by ring

theorem rotT2_rotT1 {n : ℕ} (U V : Fin n → Fin n → ℝ) (Γ : RDM2 n) :
    rotT2 U (rotT1 V Γ) = rotT1 V (rotT2 U Γ) := by
  funext p q r s
  simp only [rotT1, rotT2, Finset.mul_sum]
  rw [Finset.sum_comm]
  exact Finset.sum_congr rfl fun a _ => Finset.sum_congr rfl fun m _ => by ring

theorem rotT3_rotT1 {n : ℕ} (U V : Fin n → Fin n → ℝ) (Γ : RDM2 n) :
    rotT3 U (rotT1 V Γ) = rotT1 V (rotT3 U Γ) := by
  funext p q r s
  simp only [rotT1, rotT3, Finset.mul_sum]
  rw [Finset.sum_comm]
  exact Finset.sum_congr rfl fun a _ => Finset.sum_congr rfl fun m _ => by ring

theorem rotT3_rotT2 {n : ℕ} (U V : Fin n → Fin n → ℝ) (Γ : RDM2 n) :
    rotT3 U (rotT2 V Γ) = rotT2 V (rotT3 U Γ) := by
  funext p q r s
  simp only [rotT2, rotT3, Finset.mul_sum]
  rw [Finset.sum_comm]
  exact Finset.sum_congr rfl fun a _ => Finset.sum_congr rfl fun m _ => by ring

theorem rotT4_rotT1 {n : ℕ} (U V : Fin n → Fin n → ℝ) (Γ : RDM2 n) :
    rotT4 U (rotT1 V Γ) = rotT1 V (rotT4 U Γ) := by
  funext p q r s
  simp only [rotT1, rotT4, Finset.mul_sum]
  rw [Finset.sum_comm]
  exact Finset.sum_congr rfl fun a _ => Finset.sum_congr rfl fun m _ => by ring

theorem rotT4_rotT2 {n : ℕ} (U V : Fin n → Fin n → ℝ) (Γ : RDM2 n) :
    rotT4 U (rotT2 V Γ) = rotT2 V (rotT4 U Γ) := by
  funext p q r s
  simp only [rotT2, rotT4, Finset.mul_sum]
  rw [Finset.sum_comm]
  exact Finset.sum_congr rfl fun a _ => Finset.sum_congr rfl fun m _ => by ring

theorem rotT4_rotT3 {n : ℕ} (U V : Fin n → Fin n → ℝ) (Γ : RDM2 n) :
    rotT4 U (rotT3 V Γ) = rotT3 V (rotT4 U Γ) := by
  funext p q r s
  simp only [rotT3, rotT4, Finset.mul_sum]
  rw [Finset.sum_comm]
  exact Finset.sum_congr rfl fun a _ => Finset.sum_congr rfl fun m _ => by ring

theorem rdm2_rotate_comp {n : ℕ} (U V : Fin n → Fin n → ℝ) (Γ : RDM2 n) :
    rdm2_rotate U (rdm2_rotate V Γ) = rdm2_rotate (matMul U V) Γ := by
  rw [rdm2_rotate_eq_T U, rdm2_rotate_eq_T V, rdm2_rotate_eq_T (matMul U V)]
  simp only [rotT4_rotT1, rotT4_rotT2, rotT4_rotT3, rotT3_rotT1, rotT3_rotT2,
    rotT2_rotT1, rotT1_rotT1, rotT2_rotT2, rotT3_rotT3, rotT4_rotT4]

theorem givens_one_zero {n : ℕ} {i j : Fin n} (hij : i ≠ j) :
    givens 1 0 i j = fun a b => if a = b then (1 : ℝ) else 0 := by
  funext a b
  show (if a = i then (if b = i then (1:ℝ) else if b = j then 0 else 0)
    else if a = j then (if b = i then -0 else if b = j then 1 else 0)
    else if a = b then 1 else 0) = if a = b then 1 else 0
  by_cases hai : a = i
  · rw [if_pos hai]
    by_cases hbi : b = i
    · rw [if_pos hbi, if_pos (hai.trans hbi.symm)]
    · rw [if_neg hbi, if_neg (fun h : a = b => hbi (h.symm.trans hai))]
      by_cases hbj : b = j
      · rw [if_pos hbj]
      · rw [if_neg hbj]
  · rw [if_neg hai]
    by_cases haj : a = j
    · rw [if_pos haj]
      by_cases hbi : b = i
      · rw [if_pos hbi, neg_zero,
            if_neg (fun h : a = b => hij (((haj.symm.trans h).trans hbi).symm))]
      · rw [if_neg hbi]
        by_cases hbj : b = j
        · rw [if_pos hbj, if_pos (haj.trans hbj.symm)]
        · rw [if_neg hbj, if_neg (fun h : a = b => hbj (h.symm.trans haj))]
    · rw [if_neg haj]

theorem rotT1_id {n : ℕ} (Γ : RDM2 n) :
    rotT1 (fun a b => if a = b then (1 : ℝ) else 0) Γ = Γ := by
  funext p q r s
  rw [rotT1]
  have h1 : ∀ a, (if p = a then (1:ℝ) else 0) * Γ a q r s
      = if p = a then Γ a q r s else 0 := by
    intro a
    by_cases h : p = a <;> simp [h]
  rw [Finset.sum_congr rfl (fun a _ => h1 a), Finset.sum_ite_eq Finset.univ p]
  simp

theorem rotT2_id {n : ℕ} (Γ : RDM2 n) :
    rotT2 (fun a b => if a = b then (1 : ℝ) else 0) Γ = Γ := by
  funext p q r s
  rw [rotT2]
  have h1 : ∀ a, (if q = a then (1:ℝ) else 0) * Γ p a r s
      = if q = a then Γ p a r s else 0 := by
    intro a
    by_cases h : q = a <;> simp [h]
  rw [Finset.sum_congr rfl (fun a _ => h1 a), Finset.sum_ite_eq Finset.univ q]
  simp

theorem rotT3_id {n : ℕ} (Γ : RDM2 n) :
    rotT3 (fun a b => if a = b then (1 : ℝ) else 0) Γ = Γ := by
  funext p q r s
  rw [rotT3]
  have h1 : ∀ a, (if r = a then (1:ℝ) else 0) * Γ p q a s
      = if r = a then Γ p q a s else 0 := by
    intro a
    by_cases h : r = a <;> simp [h]
  rw [Finset.sum_congr rfl (fun a _ => h1 a), Finset.sum_ite_eq Finset.univ r]
  simp

theorem rotT4_id {n : ℕ} (Γ : RDM2 n) :
    rotT4 (fun a b => if a = b then (1 : ℝ) else 0) Γ = Γ := by
  funext p q r s
  rw [rotT4]
  have h1 : ∀ a, (if s = a then (1:ℝ) else 0) * Γ p q r a
      = if s = a then Γ p q r a else 0 := by
    intro a
    by_cases h : s = a <;> simp [h]
  rw [Finset.sum_congr rfl (fun a _ => h1 a), Finset.sum_ite_eq Finset.univ s]
  simp

theorem rdm2_rotate_id {n : ℕ} {i j : Fin n} (hij : i ≠ j) (Γ : RDM2 n) :
    rdm2_rotate (givens 1 0 i j) Γ = Γ := by
  rw [rdm2_rotate_eq_T, givens_one_zero hij, rotT4_id, rotT3_id, rotT2_id, rotT1_id]

theorem gamma_update_id {n : ℕ} {i j : Fin n} (hij : i ≠ j) (γ : RDM1 n)
    (hγ : spin_block_diag γ) :
    gamma_update 1 0 i j γ = γ := by
  funext p q
  rw [gamma_update_apply hij 1 0]
  by_cases hs : p.2 = q.2
  · rw [if_pos hs]
    have h1 : ∀ m k : Fin n,
        givens 1 0 i j p.1 m * givens 1 0 i j q.1 k * γ (m, p.2) (k, q.2)
          = (if p.1 = m then (1:ℝ) else 0) *
              ((if q.1 = k then (1:ℝ) else 0) * γ (m, p.2) (k, q.2)) := by
      intro m k
      rw [givens_one_zero hij]
      ring
    rw [Finset.sum_congr rfl (fun m _ => Finset.sum_congr rfl (fun k _ => h1 m k))]
    have h2 : ∀ m : Fin n,
        ∑ k, (if p.1 = m then (1:ℝ) else 0) *
            ((if q.1 = k then (1:ℝ) else 0) * γ (m, p.2) (k, q.2))
          = if p.1 = m then γ (m, p.2) (q.1, q.2) else 0 := by
      intro m
      by_cases h : p.1 = m
      · simp only [h, if_true]
        have h3 : ∀ k, (if q.1 = k then (1:ℝ) else 0) * γ (m, p.2) (k, q.2)
            = if q.1 = k then γ (m, p.2) (k, q.2) else 0 := by
          intro k
          by_cases hk : q.1 = k <;> simp [hk]
        rw [Finset.sum_congr rfl (fun k _ => by rw [one_mul, h3 k]),
            Finset.sum_ite_eq Finset.univ q.1]
        simp
      · simp [h]
    rw [Finset.sum_congr rfl (fun m _ => h2 m), Finset.sum_ite_eq Finset.univ p.1]
    simp only [Finset.mem_univ, if_true]
  · rw [if_neg hs]
    rcases Bool.eq_false_or_eq_true p.2 with hp | hp <;>
      rcases Bool.eq_false_or_eq_true q.2 with hq | hq
    · exact absurd (hp.trans hq.symm) hs
    · have := (hγ p.1 q.1).2
      rw [show ((p.1, true) : Fin n × Bool) = p by rw [← hp],
          show ((q.1, false) : Fin n × Bool) = q by rw [← hq]] at this
      exact this.symm
    · have := (hγ p.1 q.1).1
      rw [show ((p.1, false) : Fin n × Bool) = p by rw [← hp],
          show ((q.1, true) : Fin n × Bool) = q by rw [← hq]] at this
      exact this.symm
    · exact absurd (hp.trans hq.symm) hs

theorem sum_spin_double {n : ℕ} (U : Fin n → Fin n → ℝ) (p : Fin n × Bool)
    (X : Fin n × Bool → ℝ) :
    ∑ m : Fin n × Bool, spin_double U p m * X m
      = ∑ m1 : Fin n, U p.1 m1 * X (m1, p.2) := by
  rw [Fintype.sum_prod_type]
  refine Finset.sum_congr rfl fun m1 _ => ?_
  rw [Fintype.sum_bool]
  cases hp : p.2 <;> simp [spin_double, hp]

theorem gamma_full_apply {n : ℕ} (c s : ℝ) (i j : Fin n) (γ : RDM1 n)
    (p q : Fin n × Bool) :
    gamma_full c s i j γ p q
      = ∑ m1 : Fin n, ∑ k1 : Fin n,
          givens c s i j p.1 m1 * givens c s i j q.1 k1 * γ (m1, p.2) (k1, q.2) := by
  rw [gamma_full]
  have h1 : ∀ m : Fin n × Bool,
      ∑ k : Fin n × Bool,
          spin_double (givens c s i j) p m * spin_double (givens c s i j) q k * γ m k
        = spin_double (givens c s i j) p m *
            ∑ k1 : Fin n, givens c s i j q.1 k1 * γ m (k1, q.2) := by
    intro m
    rw [← sum_spin_double (givens c s i j) q (fun k => γ m k), Finset.mul_sum]
    exact Finset.sum_congr rfl fun k _ => by ring
  rw [Finset.sum_congr rfl (fun m _ => h1 m),
      sum_spin_double (givens c s i j) p
        (fun m => ∑ k1 : Fin n, givens c s i j q.1 k1 * γ m (k1, q.2))]
  refine Finset.sum_congr rfl fun m1 _ => ?_
  rw [Finset.mul_sum]
  exact Finset.sum_congr rfl fun k1 _ => by ring

theorem gamma_update_eq_full {n : ℕ} {i j : Fin n} (hij : i ≠ j) (c s : ℝ)
    (γ : RDM1 n) (hγ : spin_block_diag γ) :
    gamma_update c s i j γ = gamma_full c s i j γ := by
  funext p q
  rw [gamma_update_apply hij c s, gamma_full_apply]
  by_cases hs : p.2 = q.2
  · rw [if_pos hs]
  · rw [if_neg hs]
    have hmixed : ∀ m1 k1 : Fin n, γ (m1, p.2) (k1, q.2) = 0 := by
      intro m1 k1
      rcases Bool.eq_false_or_eq_true p.2 with hp | hp <;>
        rcases Bool.eq_false_or_eq_true q.2 with hq | hq
      · exact absurd (hp.trans hq.symm) hs
      · rw [hp, hq]
        exact (hγ m1 k1).2
      · rw [hp, hq]
        exact (hγ m1 k1).1
      · exact absurd (hp.trans hq.symm) hs
    symm
    refine Finset.sum_eq_zero fun m1 _ => Finset.sum_eq_zero fun k1 _ => ?_
    rw [hmixed m1 k1]
    ring

/-- C6: composing two `jacobi_transform`s with angles `t1` then `t2` on
the same pair `(i, j)` equals the single transform with angle `t1 + t2`
(exactly, in the real-arithmetic model), for every input pair
`(gamma, Gamma)`. -/
theorem jacobi_transform_angle_add {n : ℕ} (t1 t2 : ℝ) (i j : Fin n)
    (hij : i ≠ j) (γ : RDM1 n) (Γ : RDM2 n) :
    jacobi_transform (jacobi_transform γ Γ i j t1).1
        (jacobi_transform γ Γ i j t1).2 i j t2
      = jacobi_transform γ Γ i j (t1 + t2) := by
  rw [jacobi_transform, jacobi_transform, jacobi_transform]
  refine Prod.ext ?_ ?_
  · show gamma_update (Real.cos t2) (Real.sin t2) i j
        (gamma_update (Real.cos t1) (Real.sin t1) i j γ)
      = gamma_update (Real.cos (t1 + t2)) (Real.sin (t1 + t2)) i j γ
    rw [gamma_update_comp hij, ← Real.cos_add, ← Real.sin_add]
  · show rdm2_rotate (givens (Real.cos t2) (Real.sin t2) i j)
        (rdm2_rotate (givens (Real.cos t1) (Real.sin t1) i j) Γ)
      = rdm2_rotate (givens (Real.cos (t1 + t2)) (Real.sin (t1 + t2)) i j) Γ
    rw [rdm2_rotate_comp, matMul_givens hij, ← Real.cos_add, ← Real.sin_add]

/-- Witness for C6 at `t1 = t2 = 0`, `(i, j) = (0, 1)` on concrete
2-orbital RDMs. -/
theorem jacobi_transform_angle_add_witness :
    ((0 : Fin 2) ≠ 1) ∧
    jacobi_transform (jacobi_transform gammaMixed rdm2Zero 0 1 0).1
        (jacobi_transform gammaMixed rdm2Zero 0 1 0).2 0 1 0
      = jacobi_transform gammaMixed rdm2Zero 0 1 (0 + 0) :=
  ⟨by decide, jacobi_transform_angle_add 0 0 0 1 (by decide) gammaMixed rdm2Zero⟩

/-- C7 counterexample: at angle exactly `0`, `jacobi_transform` does not
return the input pair unchanged for every input: on the concrete 1-RDM
whose mixed-spin entries are `1`, the returned 1-RDM has those entries
zeroed, so the returned pair differs from the input pair. -/
theorem jacobi_transform_zero_cex :
    jacobi_transform gammaMixed rdm2Zero 0 1 0 ≠ (gammaMixed, rdm2Zero) := by
  intro h
  have h1 := congrFun (congrFun (congrArg Prod.fst h) ((0 : Fin 2), false))
    ((0 : Fin 2), true)
  rw [jacobi_transform] at h1
  simp [gamma_update, gammaMixed] at h1

/-- C7 (amended): for `i ≠ j`, `jacobi_transform(gamma, Gamma, i, j, 0)`
returns `(gamma, Gamma)` unchanged (exactly, in the real-arithmetic
model) for every input whose 1-RDM is spin-block-diagonal; the 2-RDM is
returned unchanged unconditionally. -/
theorem jacobi_transform_zero_angle {n : ℕ} (i j : Fin n) (hij : i ≠ j)
    (γ : RDM1 n) (Γ : RDM2 n) (hγ : spin_block_diag γ) :
    jacobi_transform γ Γ i j 0 = (γ, Γ) := by
  rw [jacobi_transform, Real.cos_zero, Real.sin_zero]
  refine Prod.ext ?_ ?_
  · exact gamma_update_id hij γ hγ
  · exact rdm2_rotate_id hij Γ

/-- Witness for C7 (amended) at `(i, j) = (0, 1)` on the zero RDMs. -/
theorem jacobi_transform_zero_angle_witness :
    ((0 : Fin 2) ≠ 1) ∧ spin_block_diag gammaZero ∧
    jacobi_transform gammaZero rdm2Zero 0 1 0 = (gammaZero, rdm2Zero) :=
  ⟨by decide, fun _ _ => ⟨rfl, rfl⟩,
   jacobi_transform_zero_angle 0 1 (by decide) gammaZero rdm2Zero
     (fun _ _ => ⟨rfl, rfl⟩)⟩

theorem gamma_full_id {n : ℕ} {i j : Fin n} (hij : i ≠ j) (γ : RDM1 n) :
    gamma_full 1 0 i j γ = γ := by
  funext p q
  rw [gamma_full_apply, givens_one_zero hij]
  have h2 : ∀ m1 : Fin n,
      ∑ k1, (if p.1 = m1 then (1:ℝ) else 0) *
          ((if q.1 = k1 then (1:ℝ) else 0) * γ (m1, p.2) (k1, q.2))
        = if p.1 = m1 then γ (m1, p.2) (q.1, q.2) else 0 := by
    intro m1
    by_cases h : p.1 = m1
    · simp only [h, if_true]
      have h3 : ∀ k1, (if q.1 = k1 then (1:ℝ) else 0) * γ (m1, p.2) (k1, q.2)
          = if q.1 = k1 then γ (m1, p.2) (k1, q.2) else 0 := by
        intro k1
        by_cases hk : q.1 = k1 <;> simp [hk]
      rw [Finset.sum_congr rfl (fun k1 _ => by rw [one_mul, h3 k1]),
          Finset.sum_ite_eq Finset.univ q.1]
      simp
    · simp [h]
  have h1 : ∀ m1 k1 : Fin n,
      (if p.1 = m1 then (1:ℝ) else 0) * (if q.1 = k1 then (1:ℝ) else 0) *
          γ (m1, p.2) (k1, q.2)
        = (if p.1 = m1 then (1:ℝ) else 0) *
            ((if q.1 = k1 then (1:ℝ) else 0) * γ (m1, p.2) (k1, q.2)) := by
    intro m1 k1
    ring
  rw [Finset.sum_congr rfl (fun m1 _ => Finset.sum_congr rfl (fun k1 _ => h1 m1 k1)),
      Finset.sum_congr rfl (fun m1 _ => h2 m1), Finset.sum_ite_eq Finset.univ p.1]
  simp only [Finset.mem_univ, if_true]

/-- C1 counterexample: at angle `0` (so `U1` is the identity and the
spin-doubled full contraction is the identity map), the selective update
and the full contraction disagree on a 1-RDM with nonzero mixed-spin
entries: the selective update zeroes them while the full contraction
keeps them. -/
theorem gamma_update_ne_gamma_full :
    gamma_update (Real.cos 0) (Real.sin 0) 0 1 gammaMixed
      ≠ gamma_full (Real.cos 0) (Real.sin 0) 0 1 gammaMixed := by
  intro h
  rw [Real.cos_zero, Real.sin_zero,
      gamma_full_id (show (0 : Fin 2) ≠ 1 by decide)] at h
  have h1 := congrFun (congrFun h ((0 : Fin 2), false)) ((0 : Fin 2), true)
  simp [gamma_update, gammaMixed] at h1

/-- C1 (amended): for every angle `t`, indices `i ≠ j` and 1-RDM whose
mixed-spin entries vanish, the selective 1-RDM update performed by
`jacobi_transform` equals the full contraction of the spin-doubled `U1`
twice against gamma. -/
theorem gamma_update_refines_full {n : ℕ} (t : ℝ) (i j : Fin n) (hij : i ≠ j)
    (γ : RDM1 n) (hγ : spin_block_diag γ) :
    gamma_update (Real.cos t) (Real.sin t) i j γ
      = gamma_full (Real.cos t) (Real.sin t) i j γ :=
  gamma_update_eq_full hij (Real.cos t) (Real.sin t) γ hγ

/-- Witness for C1 (amended) at `t = 0`, `(i, j) = (0, 1)` and the zero
1-RDM. -/
theorem gamma_update_refines_full_witness :
    ((0 : Fin 2) ≠ 1) ∧ spin_block_diag gammaZero ∧
    gamma_update (Real.cos 0) (Real.sin 0) 0 1 gammaZero
      = gamma_full (Real.cos 0) (Real.sin 0) 0 1 gammaZero :=
  ⟨by decide, fun _ _ => ⟨rfl, rfl⟩,
   gamma_update_refines_full 0 0 1 (by decide) gammaZero
     (fun _ _ => ⟨rfl, rfl⟩)⟩

/-- C10: for every input 1-RDM (also with nonzero mixed-spin entries),
indices `i ≠ j` and angle `t`, the 1-RDM returned by `jacobi_transform`
has every mixed-spin entry exactly zero: only same-spin entries are ever
assigned, so mixed-spin coherence in the input is discarded. -/
theorem jacobi_transform_mixed_spin_zero {n : ℕ} (γ : RDM1 n) (Γ : RDM2 n)
    (i j : Fin n) (hij : i ≠ j) (t : ℝ) (a b : Fin n) :
    (jacobi_transform γ Γ i j t).1 (a, false) (b, true) = 0 ∧
    (jacobi_transform γ Γ i j t).1 (a, true) (b, false) = 0 := by
  constructor <;> simp [jacobi_transform, gamma_update]

/-- Witness for C10 on the mixed-entry 1-RDM at `(i, j) = (0, 1)`,
`t = 0`. -/
theorem jacobi_transform_mixed_spin_zero_witness :
    ((0 : Fin 2) ≠ 1) ∧
    ((jacobi_transform gammaMixed rdm2Zero 0 1 0).1 ((0 : Fin 2), false)
        ((0 : Fin 2), true) = 0 ∧
     (jacobi_transform gammaMixed rdm2Zero 0 1 0).1 ((0 : Fin 2), true)
        ((0 : Fin 2), false) = 0) :=
  ⟨by decide, jacobi_transform_mixed_spin_zero gammaMixed rdm2Zero 0 1 (by decide) 0 0 0⟩

/-! ## Angle-search lemmas -/

theorem fine_fold_eq_last_or (F : ℝ → ℝ) :
    ∀ (grid : List ℝ) (b : Option ℝ) (c : ℝ),
      (grid.foldl (fine_step F) (b, c)).1 = last_or b (accepted_angles F c grid) := by
  intro grid
  induction grid with
  | nil =>
    intro b c
    rfl
  | cons t ts ih =>
    intro b c
    rw [List.foldl_cons]
    by_cases h : c > F t + 1e-8
    · rw [show fine_step F (b, c) t = (some t, F t) by
        rw [fine_step, if_pos h]]
      rw [ih (some t) (F t)]
      rw [show accepted_angles F c (t :: ts) = t :: accepted_angles F (F t) ts by
        rw [accepted_angles, if_pos h]]
      rfl
    · rw [show fine_step F (b, c) t = (b, c) by
        rw [fine_step, if_neg h]]
      rw [ih b c]
      rw [show accepted_angles F c (t :: ts) = accepted_angles F c ts by
        rw [accepted_angles, if_neg h]]

theorem last_or_eq {α : Type} :
    ∀ (l : List α) (b : Option α),
      last_or b l = (l.getLast?).elim b some := by
  intro l
  induction l with
  | nil =>
    intro b
    rfl
  | cons t ts ih =>
    intro b
    rw [last_or, ih (some t)]
    cases ts with
    | nil =>
      rfl
    | cons t2 ts2 =>
      rw [List.getLast?_cons_cons]
      have hs : ((t2 :: ts2 : List α).getLast?).isSome :=
        List.getLast?_isSome.mpr (by simp)
      rcases Option.isSome_iff_exists.mp hs with ⟨x, hx⟩
      rw [hx]
      rfl

/-- C3: `jacobi_direct` returns the sentinel `None` exactly when no angle
examined in the fine (step 0.0001) scan improves the running best cost by
more than the tolerance `1e-8`; otherwise it returns the last accepted
angle of the fine scan, where each acceptance requires an improvement of
more than `1e-8` over the current best cost. -/
theorem jacobi_direct_none_iff {n : ℕ} (i j : Fin n) (γ : RDM1 n) (Γ : RDM2 n)
    (inactive : Finset (Fin n)) :
    (jacobi_direct i j γ Γ inactive = none ↔
      jacobi_direct_accepted i j γ Γ inactive = []) ∧
    (∀ t : ℝ, jacobi_direct i j γ Γ inactive = some t ↔
      (jacobi_direct_accepted i j γ Γ inactive).getLast? = some t) := by
  have hd : jacobi_direct i j γ Γ inactive
      = last_or none (jacobi_direct_accepted i j γ Γ inactive) := by
    rw [jacobi_direct, jacobi_direct_accepted]
    exact fine_fold_eq_last_or _ _ _ _
  rw [hd, last_or_eq]
  cases hg : (jacobi_direct_accepted i j γ Γ inactive).getLast? with
  | none =>
    have hnil : jacobi_direct_accepted i j γ Γ inactive = [] := by
      by_contra hne
      have hs := List.getLast?_isSome.mpr hne
      rw [hg] at hs
      simp at hs
    constructor
    · simp [hnil]
    · intro t
      simp [hnil]
  | some x =>
    have hne : jacobi_direct_accepted i j γ Γ inactive ≠ [] := by
      intro hnil
      rw [hnil] at hg
      simp at hg
    constructor
    · simp [hne]
    · intro t
      simp

/-- The fine window with `t_opt = 0` (adjusted to `0.01`) is
`np.arange(0, 0.02, 0.0001)`: 200 points `0.0001 * k`. -/
theorem fine_window_zero :
    fine_window (shift_t_opt 0)
      = (List.range 200).map (fun k : ℕ => (0 : ℝ) + 0.0001 * (k : ℝ)) := by
  have hs : shift_t_opt 0 = 0.01 := by
    rw [shift_t_opt, if_pos rfl]
    norm_num
  rw [hs, fine_window, arange]
  have h1 : ((0.01 : ℝ) + 0.01 - (0.01 - 0.01)) / 0.0001 = ((200 : ℤ) : ℝ) := by
    norm_num
  rw [h1, Int.ceil_intCast]
  have h2 : (0.01 : ℝ) - 0.01 = 0 := by norm_num
  rw [h2]
  rfl

/-- C4 counterexample: when the coarse scan found no improving angle
(`t_opt` stays 0), it is not the case that every angle examined by the
fine scan is `≥ 0.01`: the window starts at `0 = (0 + 0.01) - 0.01`, so
angle `0 < 0.01` is examined. -/
theorem zero_mem_fine_window_zero : (0 : ℝ) ∈ fine_window (shift_t_opt 0) := by
  rw [fine_window_zero]
  have h200 : (0 : ℕ) ∈ List.range 200 := List.mem_range.mpr (by norm_num)
  have hmem := List.mem_map_of_mem (fun k : ℕ => (0 : ℝ) + 0.0001 * (k : ℝ)) h200
  have he : ((fun k : ℕ => (0 : ℝ) + 0.0001 * (k : ℝ)) (0 : ℕ)) = (0 : ℝ) := by
    norm_num
  rw [he] at hmem
  exact hmem

theorem fine_window_start_cex :
    ¬ (∀ t ∈ fine_window (shift_t_opt 0), (0.01 : ℝ) ≤ t) := by
  intro h
  exact absurd (h 0 zero_mem_fine_window_zero) (by norm_num)

/-- C4 (amended): when the coarse scan finds no improving angle so
`t_opt` remains 0, the fine window is re-centered at `grid = 0.01`
(running over `[0, 0.02)`): every examined angle is `≥ 0`, the window
starts at the angle `0`, and in particular angles below `0.01` are
examined. -/
theorem fine_window_zero_spec :
    (∀ t ∈ fine_window (shift_t_opt 0), (0 : ℝ) ≤ t) ∧
    ((0 : ℝ) ∈ fine_window (shift_t_opt 0) ∧ (0 : ℝ) < 0.01) := by
  refine ⟨?_, zero_mem_fine_window_zero, by norm_num⟩
  intro t ht
  rw [fine_window_zero] at ht
  rcases List.mem_map.mp ht with ⟨k, _, hk⟩
  rw [← hk]
  show (0 : ℝ) ≤ 0 + 0.0001 * (k : ℝ)
  have hk0 : (0 : ℝ) ≤ (k : ℝ) := Nat.cast_nonneg k
  nlinarith

/-- Witness for C4 (amended) at the examined angle `0`. -/
theorem fine_window_zero_spec_witness :
    (0 : ℝ) ∈ fine_window (shift_t_opt 0) ∧ (0 : ℝ) ≤ 0 :=
  ⟨fine_window_zero_spec.2.1,
   fine_window_zero_spec.1 0 fine_window_zero_spec.2.1⟩

/-! ## Bubble-sort lemmas -/

theorem bubble_pass_perm {α : Type} [LinearOrder α] :
    ∀ l : List α, (bubble_pass l).1.Perm l := by
  intro l
  induction l using bubble_pass.induct with
  | case1 => simp [bubble_pass]
  | case2 a => simp [bubble_pass]
  | case3 a b l h ih =>
    rw [bubble_pass]
    simp only [if_pos h]
    show (b :: (bubble_pass (a :: l)).1).Perm (a :: b :: l)
    exact (ih.cons b).trans (List.Perm.swap a b l)
  | case4 a b l h ih =>
    rw [bubble_pass]
    simp only [if_neg h]
    show (a :: (bubble_pass (b :: l)).1).Perm (a :: b :: l)
    exact ih.cons a

theorem bubble_pass_countP {α : Type} [LinearOrder α] (l : List α) (p : α → Bool) :
    (bubble_pass l).1.countP p = l.countP p :=
  (bubble_pass_perm l).countP_eq p

theorem inversions_bubble_pass {α : Type} [LinearOrder α] :
    ∀ l : List α, inversions (bubble_pass l).1 + (bubble_pass l).2 = inversions l := by
  intro l
  induction l using bubble_pass.induct with
  | case1 => simp [bubble_pass, inversions]
  | case2 a => simp [bubble_pass, inversions]
  | case3 a b l h ih =>
    rw [bubble_pass]
    simp only [if_pos h]
    show inversions (b :: (bubble_pass (a :: l)).1) + ((bubble_pass (a :: l)).2 + 1)
      = inversions (a :: b :: l)
    have h1 := bubble_pass_countP (a :: l) (fun x => decide (b < x))
    have e1 : (a :: l).countP (fun x => decide (b < x))
        = l.countP (fun x => decide (b < x)) := by
      rw [List.countP_cons]
      simp [asymm h]
    have e2 : (b :: l).countP (fun x => decide (a < x))
        = l.countP (fun x => decide (a < x)) + 1 := by
      rw [List.countP_cons]
      simp [h]
    simp only [inversions] at ih ⊢
    rw [h1, e1, e2]
    omega
  | case4 a b l h ih =>
    rw [bubble_pass]
    simp only [if_neg h]
    show inversions (a :: (bubble_pass (b :: l)).1) + (bubble_pass (b :: l)).2
      = inversions (a :: b :: l)
    have h1 := bubble_pass_countP (b :: l) (fun x => decide (a < x))
    simp only [inversions] at ih ⊢
    rw [h1]
    rw [show (b :: l).countP (fun x => decide (a < x))
        = l.countP (fun x => decide (a < x)) + (if a < b then 1 else 0) by
      rw [List.countP_cons]
      by_cases hab : a < b <;> simp [hab]]
    omega

theorem bubble_loop_swaps_le {α : Type} [LinearOrder α] :
    ∀ (fuel : ℕ) (l : List α), (bubble_loop fuel l).2 ≤ inversions l := by
  intro fuel
  induction fuel with
  | zero =>
    intro l
    simp [bubble_loop]
  | succ f ih =>
    intro l
    rw [bubble_loop]
    by_cases h : (bubble_pass l).2 = 0
    · rw [if_pos h]
      simp
    · rw [if_neg h]
      have hp := inversions_bubble_pass l
      have hl := ih (bubble_pass l).1
      show (bubble_pass l).2 + (bubble_loop f (bubble_pass l).1).2 ≤ inversions l
      omega

theorem bubble_loop_fuel_stable {α : Type} [LinearOrder α] :
    ∀ (f g : ℕ) (l : List α), inversions l < f → inversions l < g →
      bubble_loop f l = bubble_loop g l := by
  intro f
  induction f with
  | zero =>
    intro g l hf _
    exact absurd hf (Nat.not_lt_zero _)
  | succ f ih =>
    intro g l hf hg
    cases g with
    | zero => exact absurd hg (Nat.not_lt_zero _)
    | succ g =>
      rw [bubble_loop, bubble_loop]
      by_cases h : (bubble_pass l).2 = 0
      · rw [if_pos h, if_pos h]
      · rw [if_neg h, if_neg h]
        have hp := inversions_bubble_pass l
        have hlt : inversions (bubble_pass l).1 < f := by omega
        have hlt2 : inversions (bubble_pass l).1 < g := by omega
        rw [ih g (bubble_pass l).1 hlt hlt2]

theorem two_mul_inversions_le {α : Type} [LinearOrder α] :
    ∀ l : List α, 2 * inversions l ≤ l.length * (l.length - 1) := by
  intro l
  induction l with
  | nil => simp [inversions]
  | cons a l ih =>
    rw [inversions, List.length_cons]
    have hc : l.countP (fun b => decide (a < b)) ≤ l.length := List.countP_le_length _
    have hmul : l.length * (l.length - 1) + l.length = l.length * l.length := by
      cases hL : l.length with
      | zero => rfl
      | succ m =>
        simp only [Nat.succ_sub_one]
        ring
    have hsq : (l.length + 1) * ((l.length + 1) - 1) = l.length * l.length + l.length := by
      simp only [Nat.add_sub_cancel]
      ring
    rw [hsq]
    calc 2 * (l.countP (fun b => decide (a < b)) + inversions l)
        = 2 * l.countP (fun b => decide (a < b)) + 2 * inversions l := by ring
      _ ≤ 2 * l.length + l.length * (l.length - 1) := by linarith
      _ ≤ l.length * l.length + l.length := by linarith

/-- C9: for every input `(gamma, Gamma)` and `N_cas`, the bubble-sort
phase of `reorder` terminates — the loop's result is stable once the pass
budget exceeds the number of inversions of the entropy list — and the
number of adjacent-swap rotation records (angle-0 records) it produces
never exceeds `N·(N-1)/2`. -/
theorem reorder_bubble_spec {n : ℕ} (γ : RDM1 n) (Γ : RDM2 n) (N_cas : ℕ) :
    (∀ f : ℕ, inversions (reorder_S1 γ) < f →
      bubble_loop f (reorder_S1 γ) = reorder_bubble γ) ∧
    (reorder_bubble γ).2 ≤ n * (n - 1) / 2 := by
  constructor
  · intro f hf
    exact bubble_loop_fuel_stable f (inversions (reorder_S1 γ) + 1) (reorder_S1 γ)
      hf (Nat.lt_succ_self _)
  · have h1 : (reorder_bubble γ).2 ≤ inversions (reorder_S1 γ) :=
      bubble_loop_swaps_le _ _
    have h2 := two_mul_inversions_le (reorder_S1 γ)
    have h3 : (reorder_S1 γ).length = n := by
      simp [reorder_S1]
    rw [h3] at h2
    have h4 : inversions (reorder_S1 γ) ≤ n * (n - 1) / 2 := by
      rw [Nat.le_div_iff_mul_le (by norm_num)]
      linarith
    exact le_trans h1 h4

/-- Witness for C9 on the zero RDMs, with pass budget one more than the
inversion count. -/
theorem reorder_bubble_spec_witness :
    inversions (reorder_S1 gammaZero) < inversions (reorder_S1 gammaZero) + 1 ∧
    bubble_loop (inversions (reorder_S1 gammaZero) + 1) (reorder_S1 gammaZero)
      = reorder_bubble gammaZero :=
  ⟨Nat.lt_succ_self _,
   (reorder_bubble_spec gammaZero rdm2Zero 0).1 _ (Nat.lt_succ_self _)⟩

/-! ## Fast-reorder lemmas -/

theorem argsort_desc_injective {m : ℕ} (v : Fin m → ℝ) :
    Function.Injective (argsort_desc v) := by
  intro k k' he
  have h1 : Fin.rev k = Fin.rev k' := (Tuple.sort v).injective he
  exact Fin.rev_injective h1

theorem concat_tail_inj {n : ℕ} (n_cas : ℕ) (τ : Fin (n - n_cas) → Fin (n - n_cas))
    (hτ : Function.Injective τ) :
    Function.Injective (concat_tail (n := n) n_cas τ) := by
  intro k k' he
  simp only [concat_tail] at he
  by_cases h1 : (k : ℕ) < n_cas <;> by_cases h2 : (k' : ℕ) < n_cas
  · rw [dif_pos h1, dif_pos h2] at he
    exact he
  · rw [dif_pos h1, dif_neg h2] at he
    have hv := congrArg Fin.val he
    simp only [tail_idx] at hv
    omega
  · rw [dif_neg h1, dif_pos h2] at he
    have hv := congrArg Fin.val he
    simp only [tail_idx] at hv
    omega
  · rw [dif_neg h1, dif_neg h2] at he
    have hv := congrArg Fin.val he
    simp only [tail_idx] at hv
    have h3 : τ ⟨(k : ℕ) - n_cas, by have := k.isLt; omega⟩
        = τ ⟨(k' : ℕ) - n_cas, by have := k'.isLt; omega⟩ := by
      apply Fin.ext
      omega
    have h4 := hτ h3
    have hv4 := congrArg Fin.val h4
    simp only [] at hv4
    apply Fin.ext
    omega

theorem concat_head_inj {n : ℕ} (n_cas : ℕ) (h : n_cas ≤ n)
    (ρ : Fin n_cas → Fin n_cas) (hρ : Function.Injective ρ) :
    Function.Injective (concat_head (n := n) n_cas h ρ) := by
  intro k k' he
  simp only [concat_head] at he
  by_cases h1 : (k : ℕ) < n_cas <;> by_cases h2 : (k' : ℕ) < n_cas
  · rw [dif_pos h1, dif_pos h2] at he
    have hv := congrArg Fin.val he
    simp only [] at hv
    have h3 : ρ ⟨(k : ℕ), h1⟩ = ρ ⟨(k' : ℕ), h2⟩ := Fin.ext hv
    have h4 := congrArg Fin.val (hρ h3)
    simp only [] at h4
    exact Fin.ext h4
  · rw [dif_pos h1, dif_neg h2] at he
    have hv := congrArg Fin.val he
    simp only [] at hv
    have := (ρ ⟨(k : ℕ), h1⟩).isLt
    omega
  · rw [dif_neg h1, dif_pos h2] at he
    have hv := congrArg Fin.val he
    simp only [] at hv
    have := (ρ ⟨(k' : ℕ), h2⟩).isLt
    omega
  · rw [dif_neg h1, dif_neg h2] at he
    exact he

theorem core_move_val {n : ℕ} (n_cas n_core : ℕ) (h : n_cas + n_core ≤ n)
    (k : Fin n) :
    (core_move n_cas n_core h k : ℕ)
      = if (k : ℕ) < n_core then n_cas + (k : ℕ)
        else if (k : ℕ) < n_core + n_cas then (k : ℕ) - n_core
        else (k : ℕ) := by
  simp only [core_move]
  split_ifs <;> rfl

theorem core_move_inj {n : ℕ} (n_cas n_core : ℕ) (h : n_cas + n_core ≤ n) :
    Function.Injective (core_move (n := n) n_cas n_core h) := by
  intro k k' he
  have hv := congrArg Fin.val he
  rw [core_move_val, core_move_val] at hv
  have hk := k.isLt
  have hk' := k'.isLt
  apply Fin.ext
  split_ifs at hv <;> omega

theorem mat_vec_perm {n : ℕ} (f : Fin n → Fin n) (v : Fin n → ℝ) (k : Fin n) :
    mat_vec (perm_mat f) v k = v (f k) := by
  rw [mat_vec]
  have h1 : ∀ l, perm_mat f k l * v l = if l = f k then v l else 0 := by
    intro l
    rw [perm_mat]
    by_cases h : l = f k <;> simp [h]
  rw [Finset.sum_congr rfl (fun l _ => h1 l), Finset.sum_ite_eq' Finset.univ (f k) v]
  simp

theorem perm_mat_orthogonal {n : ℕ} (f : Fin n → Fin n)
    (hf : Function.Injective f) :
    mat_mul_transpose (perm_mat f) (perm_mat f) = id_mat := by
  funext k l
  rw [mat_mul_transpose, id_mat]
  have h1 : ∀ m, perm_mat f k m * perm_mat f l m
      = if m = f k then (if m = f l then (1:ℝ) else 0) else 0 := by
    intro m
    rw [perm_mat, perm_mat]
    by_cases h : m = f k <;> by_cases h2 : m = f l <;> simp [h, h2]
  rw [Finset.sum_congr rfl (fun m _ => h1 m),
      Finset.sum_ite_eq' Finset.univ (f k) (fun m => if m = f l then (1:ℝ) else 0)]
  simp only [Finset.mem_univ, if_true]
  by_cases h : k = l
  · rw [if_pos (by rw [h]), if_pos h]
  · rw [if_neg (fun he : f k = f l => h (hf he)), if_neg h]

theorem rf_f0_inj {n : ℕ} (γ : RDM1 n) (Γ : RDM2 n) :
    Function.Injective (rf_f0 γ Γ) :=
  argsort_desc_injective _

theorem rf_f1_inj {n : ℕ} (γ : RDM1 n) (Γ : RDM2 n) (n_cas : ℕ) :
    Function.Injective (rf_f1 γ Γ n_cas) := by
  intro k k' he
  exact concat_tail_inj n_cas _ (argsort_desc_injective _) (rf_f0_inj γ Γ he)

theorem rf_f2_inj {n : ℕ} (γ : RDM1 n) (Γ : RDM2 n) (n_cas : ℕ) (h : n_cas ≤ n) :
    Function.Injective (rf_f2 γ Γ n_cas h) := by
  intro k k' he
  exact concat_head_inj n_cas h _ (argsort_desc_injective _) (rf_f1_inj γ Γ n_cas he)

theorem reorder_fast_idx_inj {n : ℕ} (γ : RDM1 n) (Γ : RDM2 n)
    (n_cas n_core : ℕ) (h : n_cas + n_core ≤ n) :
    Function.Injective (reorder_fast_idx γ Γ n_cas n_core h) := by
  intro k k' he
  exact core_move_inj n_cas n_core h (rf_f2_inj γ Γ n_cas (by omega) he)

/-- C5: for every `(gamma, Gamma)` and `n_cas`, `n_core` with
`n_cas + n_core ≤ N`, `reorder_fast`'s self-check holds exactly —
applying the returned permutation matrix `P` to the original unsorted
entropy vector reproduces the tracked sorted entropy vector (so the
assertion branch is never triggered) — and `P` is an orthogonal
permutation matrix: `P @ P.T = Identity`. -/
theorem reorder_fast_spec {n : ℕ} (γ : RDM1 n) (Γ : RDM2 n) (n_cas n_core : ℕ)
    (h : n_cas + n_core ≤ n) :
    (∀ k, mat_vec (reorder_fast_P γ Γ n_cas n_core h) (s_val_init γ Γ) k
        = reorder_fast_s_val γ Γ n_cas n_core h k) ∧
    mat_mul_transpose (reorder_fast_P γ Γ n_cas n_core h)
        (reorder_fast_P γ Γ n_cas n_core h) = id_mat := by
  constructor
  · intro k
    rw [reorder_fast_P, mat_vec_perm, reorder_fast_s_val]
  · exact perm_mat_orthogonal _ (reorder_fast_idx_inj γ Γ n_cas n_core h)

/-- Witness for C5 at `n = 2`, `n_cas = n_core = 1` on the zero RDMs. -/
theorem reorder_fast_spec_witness :
    1 + 1 ≤ 2 ∧
    ((∀ k, mat_vec (reorder_fast_P gammaZero rdm2Zero 1 1 (by decide))
          (s_val_init gammaZero rdm2Zero) k
        = reorder_fast_s_val gammaZero rdm2Zero 1 1 (by decide) k) ∧
     mat_mul_transpose (reorder_fast_P gammaZero rdm2Zero 1 1 (by decide))
        (reorder_fast_P gammaZero rdm2Zero 1 1 (by decide)) = id_mat) :=
  ⟨by decide, reorder_fast_spec gammaZero rdm2Zero 1 1 (by decide)⟩
